import Mathlib

/-!
Shallow embedding of the ingestion execution core of the `ats` repository:

* `src/backend/ingest/job_queue.py#IngestionQueue` — SQLite-backed job store;
  here the `jobs` table is a `List Job` in rowid (insertion) order, and each
  SQL statement becomes a pure function on that list.  ISO-8601 timestamp
  strings (which compare lexicographically) are modelled as `Nat`, passed in
  explicitly where the code calls `datetime.utcnow()`.
* `src/backend/ingest/worker.py#process_job` — the per-job pipeline, with the
  filesystem and the Loader/Extractor collaborators abstracted into an
  explicit environment of per-unit outcomes.
* `src/backend/parse/dedupe.py#run_dedupe` — duplicate collapsing over the
  artifact directory; the directory listing is a `List Artifact` and
  relocation into the `duplicates/` subdirectory is recorded as membership of
  the artifact's name in a `moved` list (a file whose name is in `moved` is no
  longer at its original path, so `Path.stat` on it raises
  `FileNotFoundError`).
-/

namespace ATS

/-- The `JobStatus` enum from `job_queue.py`. -/
inductive JobStatus where
  | pending
  | processing
  | completed
  | failed
deriving DecidableEq, Repr

/-- The summary payload `process_job` stores on completion:
`{"documents_loaded": …, "documents_parsed": …, "type": …}` (the `type` key is
named `typ` here because `type` is reserved in Lean). -/
structure IngestResult where
  documents_loaded : Nat
  documents_parsed : Nat
  typ : String
deriving DecidableEq, Repr

/-- A row of the `jobs` table (class `Job` in `job_queue.py`).  `job_id`
(a UUID string) is modelled as `Nat`; timestamps as `Nat`. -/
structure Job where
  job_id : Nat
  file_path : String
  status : JobStatus
  retries : Nat
  max_retries : Nat
  error_message : Option String
  created_at : Nat
  updated_at : Nat
  result : Option IngestResult
deriving DecidableEq, Repr

/-- The `jobs` table, in rowid (insertion) order. -/
abbrev Store := List Job

/-- The job ids present in the table. -/
def jobIds (q : Store) : List Nat := q.map Job.job_id

/-- Models `IngestionQueue.enqueue`: `INSERT INTO jobs … VALUES (job_id, file_path,
'pending', 0, max_retries, now, now)`.  `job_id` is a fresh UUID4 in the
code; it is a parameter here.  An insert whose `job_id` collides with the
primary key raises `IntegrityError` and leaves the table unchanged, which is
modelled as the identity on the store. -/
def enqueue (q : Store) (id : Nat) (file_path : String) (max_retries : Nat)
    (now : Nat) : Store :=
  if id ∈ jobIds q then q
  else q ++ [{ job_id := id, file_path := file_path, status := .pending,
               retries := 0, max_retries := max_retries, error_message := none,
               created_at := now, updated_at := now, result := none }]

/-- Models `IngestionQueue.get_job`: `SELECT … FROM jobs WHERE job_id = ?`
(`fetchone`). -/
def get_job (q : Store) (id : Nat) : Option Job :=
  q.find? (fun j => j.job_id = id)

/-- Models `IngestionQueue.get_pending_job`:
`SELECT … WHERE status = 'pending' ORDER BY created_at ASC LIMIT 1`,
modelled literally: filter the pending rows, sort them by `created_at`, take
the first.  Among pending rows of equal `created_at` SQLite returns one
unspecified row; the stable sort picks the earliest-inserted one. -/
def get_pending_job (q : Store) : Option Job :=
  ((q.filter (fun j => j.status = .pending)).insertionSort
    (fun a b => a.created_at ≤ b.created_at)).head?

/-- An SQL `UPDATE jobs SET … WHERE job_id = ?`: rewrite every row whose
`job_id` matches. -/
def updateJob (q : Store) (id : Nat) (f : Job → Job) : Store :=
  q.map (fun j => if j.job_id = id then f j else j)

/-- Models `IngestionQueue.mark_processing`:
`UPDATE jobs SET status = 'processing', updated_at = ? WHERE job_id = ?` —
note there is no guard on the current status. -/
def mark_processing (q : Store) (id : Nat) (now : Nat) : Store :=
  updateJob q id (fun j => { j with status := .processing, updated_at := now })

/-- Models `IngestionQueue.mark_completed`:
`UPDATE jobs SET status = 'completed', updated_at = ?, result_json = ?,
error_message = NULL WHERE job_id = ?` — again no guard on the current
status.  (The Python `result or {}` default for a missing argument is not
modelled; the worker always passes an explicit result.) -/
def mark_completed (q : Store) (id : Nat) (res : IngestResult) (now : Nat) :
    Store :=
  updateJob q id (fun j =>
    { j with status := .completed, updated_at := now, result := some res,
             error_message := none })

/-- Models `IngestionQueue.mark_failed`: fetches the job first (`get_job`); if it is
absent, returns with no change; if `retries < max_retries`, sets the row back
to `'pending'` with `retries + 1` and the error message; otherwise sets the
row to `'failed'` with the error message, `retries` untouched. -/
def mark_failed (q : Store) (id : Nat) (err : String) (now : Nat) : Store :=
  match get_job q id with
  | none => q
  | some job =>
    if job.retries < job.max_retries then
      updateJob q id (fun j =>
        { j with status := .pending, retries := job.retries + 1,
                 error_message := some err, updated_at := now })
    else
      updateJob q id (fun j =>
        { j with status := .failed, error_message := some err,
                 updated_at := now })

/-- Models `IngestionQueue.get_stats`: `SELECT status, COUNT(*) … GROUP BY status`,
read back as one count per status. -/
def get_stats (q : Store) (s : JobStatus) : Nat :=
  (q.filter (fun j => j.status = s)).length

/-! ### Operation sequences on the store

One constructor per mutating `IngestionQueue` method, so that invariants can
be stated over every reachable store. -/

/-- A store operation, as issued by the API layer and the worker. -/
inductive QOp where
  | enq (id : Nat) (file_path : String) (max_retries : Nat) (now : Nat)
  | markProcessing (id : Nat) (now : Nat)
  | markCompleted (id : Nat) (res : IngestResult) (now : Nat)
  | markFailed (id : Nat) (err : String) (now : Nat)
deriving DecidableEq, Repr

/-- Apply one operation to the store. -/
def applyOp (q : Store) : QOp → Store
  | .enq id fp mr now => enqueue q id fp mr now
  | .markProcessing id now => mark_processing q id now
  | .markCompleted id res now => mark_completed q id res now
  | .markFailed id err now => mark_failed q id err now

/-- Run a sequence of operations from a starting store. -/
def runOps (q : Store) (ops : List QOp) : Store :=
  ops.foldl applyOp q

/-- Every `enq` in the list has `max_retries ≥ 1` (the spec's submission
contract). -/
def enqMaxRetriesPos : List QOp → Prop
  | [] => True
  | .enq _ _ mr _ :: ops => 1 ≤ mr ∧ enqMaxRetriesPos ops
  | _ :: ops => enqMaxRetriesPos ops

instance : DecidablePred enqMaxRetriesPos := fun ops => by
  induction ops with
  | nil => exact .isTrue trivial
  | cons op ops ih =>
    cases op with
    | enq id fp mr now => exact instDecidableAnd
    | markProcessing id now => exact ih
    | markCompleted id res now => exact ih
    | markFailed id err now => exact ih

/-! ### Worker: `process_job` (`src/backend/ingest/worker.py`)

The filesystem and the Loader/Extractor/artifact-write collaborators are
abstracted into a `PipelineEnv`: what kind of path the job's target is, and
one `UnitOutcome` per candidate input unit.  A unit whose `loaded` is `none`
was skipped by the loader (the per-file loaders catch their own exceptions
and return `None`, and `load_documents` drops such files), so it never
appears in `docs`.  A loaded unit with `parseOk = false` models an exception
out of `try_parse_with_llm` or the artifact `json.dump`, which the per-unit
`try/except` inside the loop catches and merely logs. -/

/-- What `Path.is_dir()` / `Path.is_file()` report for the job's target. -/
inductive PathKind where
  | dir
  | file
  | missing
deriving DecidableEq, Repr

/-- The outcome the external collaborators produce for one candidate unit. -/
structure UnitOutcome where
  name : String
  loaded : Option String
  parseOk : Bool
deriving DecidableEq, Repr

/-- The environment a single `process_job` call runs against. -/
structure PipelineEnv where
  kind : PathKind
  units : List UnitOutcome
deriving DecidableEq, Repr

/-- The documents the loader stage yields (units it could load). -/
def loadedDocs (env : PipelineEnv) : List UnitOutcome :=
  env.units.filter (fun u => u.loaded.isSome)

/-- The output path `process_job` writes a parsed unit to. -/
def outPath (name : String) : String :=
  "./cv_uploads/parsed/" ++ name ++ ".parsed.json"

/-- Models `worker.process_job(queue, job_id)`: returns the updated store, the
success flag, and `newly_created` (the artifact paths written).  Mirrors the
source: missing job → early `False` return; then `mark_processing`; a target
that is neither directory nor file raises `FileNotFoundError`, which the
outer `except` turns into `mark_failed`; otherwise each loaded document is
parsed and written (per-unit failures caught), and the job is
`mark_completed` with the `{documents_loaded, documents_parsed, type}`
summary. -/
def process_job (q : Store) (id : Nat) (env : PipelineEnv) (now : Nat) :
    Store × Bool × List String :=
  match get_job q id with
  | none => (q, false, [])
  | some job =>
    let q1 := mark_processing q id now
    match env.kind with
    | .missing =>
      let errMsg := "FileNotFoundError: Path does not exist: " ++ job.file_path
      (mark_failed q1 id errMsg now, false, [])
    | k =>
      let docs := loadedDocs env
      let parsedUnits := docs.filter (fun u => u.parseOk)
      let res : IngestResult :=
        { documents_loaded := docs.length,
          documents_parsed := parsedUnits.length,
          typ := if k = .dir then "directory" else "file" }
      (mark_completed q1 id res now, true, parsedUnits.map (fun u => outPath u.name))

/-! ### Dedupe post-processor (`src/backend/parse/dedupe.py`)

The artifact directory is a fixed `List Artifact` (one entry per
`*.parsed.json` file ever written there), plus a `moved : List Nat` of the
names that have been relocated into the `duplicates/` subdirectory.  The
non-recursive `parsed_path.glob('*.parsed.json')` therefore lists exactly the
artifacts whose name is not in `moved`, and `p.stat()` on a path that was
relocated during the current run raises `FileNotFoundError`.  File names are
`Nat` (only their identity and sort order matter); the `email`/`phone` fields
hold the raw contact strings read from the JSON (`none` when the file is
unreadable or has no such field).  `shutil.move`'s choice of target filename
inside `duplicates/` (the `--dup` suffixing) is not modelled: relocation is
recorded only as membership in `moved`. -/

/-- An artifact file: `<name>.parsed.json` with its mtime and raw contact
fields. -/
structure Artifact where
  name : Nat
  mtime : Nat
  email : Option String
  phone : Option String
deriving DecidableEq, Repr

/-- Python `str.lower()`, character by character.  (Implemented over the
character list because `String.toLower` does not reduce in the kernel.) -/
def lowerStr (s : String) : String := String.mk (s.data.map Char.toLower)

/-- Python `str.strip()`: drop leading and trailing whitespace. -/
def stripStr (s : String) : String :=
  String.mk (((s.data.dropWhile Char.isWhitespace).reverse.dropWhile
    Char.isWhitespace).reverse)

/-- Models `_normalize_phone`: keep only digits and `+`; empty result (or falsy
input) is `None`. -/
def normalizePhone : Option String → Option String
  | none => none
  | some s =>
    let t := String.mk (s.data.filter (fun c => c.isDigit || c = '+'))
    if t.isEmpty then none else some t

/-- Models `_normalize_email`: `None`/empty input is `None`, otherwise
`email.strip().lower()` (which may be the empty string). -/
def normalizeEmail : Option String → Option String
  | none => none
  | some s => if s.isEmpty then none else some (lowerStr (stripStr s))

/-- The `if email:` / `if phone:` truthiness test guarding map insertion in
`run_dedupe`: the key is used only when it is neither `None` nor `""`. -/
def truthy : Option String → Option String
  | none => none
  | some s => if s.isEmpty then none else some s

/-- The email key an artifact contributes to `email_map`. -/
def emailKeyOf (a : Artifact) : Option String := truthy (normalizeEmail a.email)

/-- The phone key an artifact contributes to `phone_map`. -/
def phoneKeyOf (a : Artifact) : Option String := truthy (normalizePhone a.phone)

/-- Keys in first-occurrence order — Python `dict` preserves insertion
order. -/
def firstOccs : List String → List String
  | [] => []
  | k :: ks => k :: (firstOccs ks).filter (fun x => x ≠ k)

/-- The member list of one dedupe group: the scanned files carrying this key,
in scan order. -/
def groupOf (key : Artifact → Option String) (files : List Artifact)
    (k : String) : List Artifact :=
  files.filter (fun a => key a = some k)

/-- Python `sorted(paths, key=lambda p: p.stat().st_mtime, reverse=True)`:
stable descending by mtime. -/
def sortByMtimeDesc (paths : List Artifact) : List Artifact :=
  paths.insertionSort (fun a b => b.mtime ≤ a.mtime)

/-- Models `sorted([...files...])`: the glob result sorted by path name. -/
def sortByName (l : List Artifact) : List Artifact :=
  l.insertionSort (fun a b => a.name ≤ b.name)

/-- Result of `run_dedupe`: either the summary (with the final `moved` set),
or the `FileNotFoundError` raised by `p.stat()` on an already-relocated
group member — the caller then sees no summary, but the relocations
performed before the raise persist in `moved`. -/
inductive DedupeOutcome where
  | ok (moved kept removed : List Nat)
  | err (moved : List Nat)
deriving DecidableEq, Repr

/-- Models `_process_groups(map_)`: iterate over the map's keys; a group of size ≤ 1
only records its member as kept; a larger group is sorted by mtime (this
`stat`s every member — if one was already relocated, `FileNotFoundError`
propagates out of `run_dedupe`), its newest member is kept and the rest are
relocated and recorded in `removed`. -/
def processGroups (key : Artifact → Option String) (files : List Artifact) :
    List String → List Nat → List Nat → List Nat → DedupeOutcome
  | [], moved, kept, removed => .ok moved kept removed
  | k :: ks, moved, kept, removed =>
    if (groupOf key files k).length ≤ 1 then
      processGroups key files ks moved
        (kept ++ (groupOf key files k).map Artifact.name) removed
    else if (groupOf key files k).any (fun a => a.name ∈ moved) then
      .err moved
    else
      match sortByMtimeDesc (groupOf key files k) with
      | [] => processGroups key files ks moved kept removed
      | keeper :: rest =>
        processGroups key files ks (moved ++ rest.map Artifact.name)
          (kept ++ [keeper.name]) (removed ++ rest.map Artifact.name)

/-- The result of `sorted(parsed_path.glob('*.parsed.json'))`: the artifacts
not yet relocated into `duplicates/`, in name order. -/
def scanFiles (arts : List Artifact) (moved0 : List Nat) : List Artifact :=
  sortByName (arts.filter (fun a => a.name ∉ moved0))

/-- The keys of `email_map` / `phone_map` built over one scan, in Python
`dict` insertion order. -/
def keysFor (key : Artifact → Option String) (files : List Artifact) :
    List String :=
  firstOccs (files.filterMap key)

/-- The `_process_groups(email_map)` call: the first phase of `run_dedupe`,
started on the freshly scanned directory with empty `kept`/`removed`. -/
def emailPhase (arts : List Artifact) (moved0 : List Nat) : DedupeOutcome :=
  processGroups emailKeyOf (scanFiles arts moved0)
    (keysFor emailKeyOf (scanFiles arts moved0)) moved0 [] []

/-- Models `run_dedupe(parsed_dir)`: scan the directory (name-sorted files not yet in
`duplicates/`), build `email_map` and `phone_map` from that one scan, process
the email groups and then the phone groups, and finally drop from `kept`
anything that was relocated. -/
def run_dedupe (arts : List Artifact) (moved0 : List Nat) : DedupeOutcome :=
  match emailPhase arts moved0 with
  | .err m => .err m
  | .ok m kept removed =>
    match processGroups phoneKeyOf (scanFiles arts moved0)
        (keysFor phoneKeyOf (scanFiles arts moved0)) m kept removed with
    | .err m' => .err m'
    | .ok m' kept' removed' =>
      .ok m' (kept'.filter (fun p => p ∉ removed')) removed'

/-- The claim that dedupe groups are resolved by modification time: in any
completed run, within each identity-key group of size ≥ 2 (as grouped over
the run's own scan) the artifact with the latest mtime is still in place
afterwards and every other member has been relocated. -/
def dedupeKeepsLatestClaim : Prop :=
  ∀ (arts : List Artifact) (moved0 m' kept removed : List Nat),
    run_dedupe arts moved0 = .ok m' kept removed →
    ∀ key ∈ [emailKeyOf, phoneKeyOf],
      ∀ kk ∈ keysFor key (scanFiles arts moved0),
        2 ≤ (groupOf key (scanFiles arts moved0) kk).length →
        ∀ kp rest,
          sortByMtimeDesc (groupOf key (scanFiles arts moved0) kk) =
            kp :: rest →
          kp.name ∉ m' ∧ ∀ a ∈ rest, a.name ∈ m'

/-- The claim that an artifact relocated by an email match is excluded from
phone-group processing.  In the code the only way phone-group processing can
observe a relocated artifact is the `p.stat()` call on it, which raises
`FileNotFoundError` — under the claimed exclusion that call would never
happen and every run would return a summary. -/
def dedupeNeverRaisesClaim : Prop :=
  ∀ (arts : List Artifact) (moved0 : List Nat),
    ∃ m kept removed, run_dedupe arts moved0 = .ok m kept removed

/-- The claim that dedupe is idempotent: whatever state a first run leaves
the directory in, an immediate second run relocates nothing. -/
def dedupeIdempotentClaim : Prop :=
  ∀ (arts : List Artifact) (moved0 m1 : List Nat),
    ((∃ kept removed, run_dedupe arts moved0 = .ok m1 kept removed) ∨
      run_dedupe arts moved0 = .err m1) →
    ∃ m2 kept2, run_dedupe arts m1 = .ok m2 kept2 []

/-! ## Lemmas about the job store -/

theorem jobId_mem_jobIds {q : Store} {j : Job} (h : j ∈ q) :
    j.job_id ∈ jobIds q :=
  List.mem_map_of_mem _ h

theorem get_job_eq_none {q : Store} {id : Nat} (h : id ∉ jobIds q) :
    get_job q id = none := by
  refine List.find?_eq_none.2 fun j hj => ?_
  simp only [decide_eq_true_eq]
  exact fun hEq => h (hEq ▸ jobId_mem_jobIds hj)

theorem get_job_mem {q : Store} {id : Nat} {j : Job}
    (h : get_job q id = some j) : j ∈ q :=
  List.mem_of_find?_eq_some h

theorem get_job_id {q : Store} {id : Nat} {j : Job}
    (h : get_job q id = some j) : j.job_id = id := by
  have := List.find?_some h
  simpa using this

theorem updateJob_eq_self {q : Store} {id : Nat} {f : Job → Job}
    (h : id ∉ jobIds q) : updateJob q id f = q := by
  induction q with
  | nil => rfl
  | cons a l ih =>
    simp only [jobIds, List.map_cons, List.mem_cons, not_or] at h
    simp only [updateJob, List.map_cons]
    rw [if_neg (fun hEq => h.1 hEq.symm)]
    have : updateJob l id f = l := ih h.2
    simpa [updateJob] using this

theorem get_job_updateJob_self {q : Store} {id : Nat} {f : Job → Job}
    (hf : ∀ j, (f j).job_id = j.job_id) :
    get_job (updateJob q id f) id = (get_job q id).map f := by
  induction q with
  | nil => rfl
  | cons a l ih =>
    by_cases h : a.job_id = id
    · simp [get_job, updateJob, List.find?_cons_of_pos, h, hf a]
    · simp only [updateJob, List.map_cons, if_neg h, get_job] at *
      rw [List.find?_cons_of_neg _ (by simpa using h),
          List.find?_cons_of_neg _ (by simpa using h)]
      exact ih

theorem jobIds_updateJob {q : Store} {id : Nat} {f : Job → Job}
    (hf : ∀ j, (f j).job_id = j.job_id) :
    jobIds (updateJob q id f) = jobIds q := by
  simp only [jobIds, updateJob, List.map_map]
  refine List.map_congr_left fun a _ => ?_
  by_cases h : a.job_id = id <;> simp [h, hf a]

theorem mem_updateJob_of_mem_ne {q : Store} {id : Nat} {f : Job → Job}
    {j : Job} (hj : j ∈ q) (h : j.job_id ≠ id) : j ∈ updateJob q id f := by
  have : (if j.job_id = id then f j else j) = j := if_neg h
  exact this ▸ List.mem_map_of_mem _ hj

/-! ## C10: store mutators on a missing job id -/

/-- C10: for a `job_id` not present in the store, `mark_processing`,
`mark_completed` and `mark_failed` all return normally and leave the store
exactly as it was. -/
theorem marks_on_missing_id_leave_store_unchanged (q : Store) (id now : Nat)
    (res : IngestResult) (err : String) (h : id ∉ jobIds q) :
    mark_processing q id now = q ∧ mark_completed q id res now = q ∧
      mark_failed q id err now = q := by
  refine ⟨updateJob_eq_self h, updateJob_eq_self h, ?_⟩
  unfold mark_failed
  rw [get_job_eq_none h]

/-- Witness for C10 at a one-job store and an absent id. -/
theorem marks_on_missing_id_leave_store_unchanged_witness :
    (9 ∉ jobIds (enqueue [] 4 "/cv.pdf" 3 0)) ∧
      (mark_processing (enqueue [] 4 "/cv.pdf" 3 0) 9 7 =
          enqueue [] 4 "/cv.pdf" 3 0 ∧
        mark_completed (enqueue [] 4 "/cv.pdf" 3 0) 9 ⟨1, 1, "file"⟩ 7 =
          enqueue [] 4 "/cv.pdf" 3 0 ∧
        mark_failed (enqueue [] 4 "/cv.pdf" 3 0) 9 "boom" 7 =
          enqueue [] 4 "/cv.pdf" 3 0) :=
  ⟨by decide,
   marks_on_missing_id_leave_store_unchanged _ 9 7 ⟨1, 1, "file"⟩ "boom"
     (by decide)⟩

/-! ## C4: `enqueue` does not validate the target -/

/-- C4 counterexample: the claim says an empty target is rejected with no job
created, but `enqueue` on the empty string still inserts a job (it performs
no validation at all). -/
theorem enqueue_empty_target_creates_job :
    ¬ (∀ id max_retries now : Nat, enqueue [] id "" max_retries now = []) := by
  intro h
  have := h 0 3 0
  simp [enqueue, jobIds] at this

/-- C4 (amended): `enqueue` performs no target validation: for every target
string — including the empty string — and fresh `job_id`, it appends exactly
one new `Pending` job with retry count 0 and that id, and the job is
retrievable under the returned id. -/
theorem enqueue_creates_pending_job (q : Store) (id : Nat) (fp : String)
    (mr now : Nat) (h : id ∉ jobIds q) :
    enqueue q id fp mr now =
        q ++ [{ job_id := id, file_path := fp, status := .pending,
                retries := 0, max_retries := mr, error_message := none,
                created_at := now, updated_at := now, result := none }] ∧
      get_job (enqueue q id fp mr now) id =
        some { job_id := id, file_path := fp, status := .pending,
               retries := 0, max_retries := mr, error_message := none,
               created_at := now, updated_at := now, result := none } := by
  have henq : enqueue q id fp mr now =
      q ++ [{ job_id := id, file_path := fp, status := .pending,
              retries := 0, max_retries := mr, error_message := none,
              created_at := now, updated_at := now, result := none }] := by
    unfold enqueue
    rw [if_neg h]
  refine ⟨henq, ?_⟩
  rw [henq]
  unfold get_job
  rw [List.find?_append]
  have hnone : List.find? (fun j => decide (j.job_id = id)) q = none :=
    get_job_eq_none h
  rw [hnone]
  simp

/-- Witness for C4 (amended) at the empty store and the empty target. -/
theorem enqueue_creates_pending_job_witness :
    (0 ∉ jobIds ([] : Store)) ∧
      (enqueue [] 0 "" 3 5 =
          [{ job_id := 0, file_path := "", status := .pending, retries := 0,
             max_retries := 3, error_message := none, created_at := 5,
             updated_at := 5, result := none }] ∧
        get_job (enqueue [] 0 "" 3 5) 0 =
          some { job_id := 0, file_path := "", status := .pending,
                 retries := 0, max_retries := 3, error_message := none,
                 created_at := 5, updated_at := 5, result := none }) :=
  ⟨by decide, by
    have := enqueue_creates_pending_job [] 0 "" 3 5 (by decide)
    simpa using this⟩

/-! ## C2: `mark_failed` retry policy -/

/-- C2: `mark_failed` on a stored job increments the retry count, records the
error and returns the job to `Pending` while `retries < max_retries`;
otherwise it sets terminal `Failed` with the retry count unchanged (and hence
equal to `max_retries` for any job that respected the bound).  In particular
Scenario A: submit with `max_retries = 2` and fail three times — the job ends
`Failed` with `retries = 2` and the third error message. -/
theorem mark_failed_applies_retry_policy (q : Store) (id now : Nat)
    (err : String) (job : Job) (h : get_job q id = some job) :
    (job.retries < job.max_retries →
      get_job (mark_failed q id err now) id =
        some { job with status := .pending, retries := job.retries + 1,
                        error_message := some err, updated_at := now }) ∧
    (¬ job.retries < job.max_retries →
      get_job (mark_failed q id err now) id =
        some { job with status := .failed, error_message := some err,
                        updated_at := now } ∧
      (job.retries ≤ job.max_retries → job.retries = job.max_retries)) ∧
    get_job (mark_failed (mark_failed (mark_failed
        (enqueue [] 0 "/cv.pdf" 2 10) 0 "err one" 11) 0 "err two" 12)
        0 "err three" 13) 0 =
      some { job_id := 0, file_path := "/cv.pdf", status := .failed,
             retries := 2, max_retries := 2, error_message := some "err three",
             created_at := 10, updated_at := 13, result := none } := by
  refine ⟨fun hlt => ?_, fun hge => ⟨?_, fun hle => le_antisymm hle (not_lt.1 hge)⟩,
    by decide⟩
  · simp only [mark_failed, h]
    rw [if_pos hlt]
    have hup := @get_job_updateJob_self q id
      (fun j => { j with status := .pending, retries := job.retries + 1,
                         error_message := some err, updated_at := now })
      (fun _ => rfl)
    rw [hup, h]
    rfl
  · simp only [mark_failed, h]
    rw [if_neg hge]
    have hup := @get_job_updateJob_self q id
      (fun j => { j with status := .failed, error_message := some err,
                         updated_at := now })
      (fun _ => rfl)
    rw [hup, h]
    rfl

/-- Witness for C2: the third failure of Scenario A discharges the
`get_job` hypothesis at a concrete store whose job has exhausted its
retries. -/
theorem mark_failed_applies_retry_policy_witness :
    (get_job (mark_failed (mark_failed (enqueue [] 0 "/cv.pdf" 2 10)
          0 "err one" 11) 0 "err two" 12) 0 =
        some { job_id := 0, file_path := "/cv.pdf", status := .pending,
               retries := 2, max_retries := 2, error_message := some "err two",
               created_at := 10, updated_at := 12, result := none }) ∧
      get_job (mark_failed (mark_failed (mark_failed
            (enqueue [] 0 "/cv.pdf" 2 10) 0 "err one" 11) 0 "err two" 12)
            0 "err three" 13) 0 =
        some { job_id := 0, file_path := "/cv.pdf", status := .failed,
               retries := 2, max_retries := 2,
               error_message := some "err three", created_at := 10,
               updated_at := 13, result := none } := by
  refine ⟨by decide, ?_⟩
  have h := mark_failed_applies_retry_policy
    (mark_failed (mark_failed (enqueue [] 0 "/cv.pdf" 2 10) 0 "err one" 11)
      0 "err two" 12) 0 13 "err three"
    { job_id := 0, file_path := "/cv.pdf", status := .pending, retries := 2,
      max_retries := 2, error_message := some "err two", created_at := 10,
      updated_at := 12, result := none } (by decide)
  simpa using h.2.1 (by decide)

/-! ## C1: terminal states are not immutable in the store -/

/-- C1 counterexample: the claim (no store mutator changes a job that is
`Completed` or `Failed`) is false — `mark_processing` flips a completed job
back to `processing`, because the `UPDATE` has no status guard. -/
theorem terminal_jobs_mutable_counterexample :
    ¬ (∀ (q : Store) (id now : Nat) (res : IngestResult) (err : String),
        ∀ j ∈ q, j.status = .completed ∨ j.status = .failed →
          j ∈ mark_processing q id now ∧ j ∈ mark_completed q id res now ∧
            j ∈ mark_failed q id err now) := by
  intro h
  have := h [{ job_id := 0, file_path := "/done.pdf", status := .completed,
               retries := 0, max_retries := 3, error_message := none,
               created_at := 0, updated_at := 0,
               result := some ⟨1, 1, "file"⟩ }] 0 5 ⟨1, 1, "file"⟩ "e"
    { job_id := 0, file_path := "/done.pdf", status := .completed,
      retries := 0, max_retries := 3, error_message := none, created_at := 0,
      updated_at := 0, result := some ⟨1, 1, "file"⟩ }
    (by decide) (Or.inl rfl)
  exact absurd this.1 (by decide)

/-- C1 (amended): the store does not protect terminal states.
`mark_processing` moves even a `Completed`/`Failed` job back to
`Processing`, and `mark_failed` re-applies the retry policy to it; a
terminal job is left unchanged only by mutators addressed to a *different*
`job_id`. -/
theorem terminal_jobs_not_protected (q : Store) (id now : Nat)
    (res : IngestResult) (err : String) (job : Job)
    (h : get_job q id = some job)
    (_hterm : job.status = .completed ∨ job.status = .failed) :
    get_job (mark_processing q id now) id =
        some { job with status := .processing, updated_at := now } ∧
      (∀ j ∈ q, j.job_id ≠ id →
        j ∈ mark_processing q id now ∧ j ∈ mark_completed q id res now ∧
          j ∈ mark_failed q id err now) := by
  constructor
  · unfold mark_processing
    have hup := @get_job_updateJob_self q id
      (fun j => { j with status := .processing, updated_at := now })
      (fun _ => rfl)
    rw [hup, h]
    rfl
  · intro j hj hne
    refine ⟨mem_updateJob_of_mem_ne hj hne, mem_updateJob_of_mem_ne hj hne, ?_⟩
    cases hfound : get_job q id with
    | none =>
      simp only [mark_failed, hfound]
      exact hj
    | some job' =>
      simp only [mark_failed, hfound]
      by_cases hlt : job'.retries < job'.max_retries
      · rw [if_pos hlt]
        exact mem_updateJob_of_mem_ne hj hne
      · rw [if_neg hlt]
        exact mem_updateJob_of_mem_ne hj hne

/-- Witness for C1 (amended): a two-job store whose first job is completed;
`mark_processing` on it yields `processing`, and mutators addressed to the
second job leave it in place. -/
theorem terminal_jobs_not_protected_witness :
    (get_job [{ job_id := 0, file_path := "/done.pdf",
                status := JobStatus.completed, retries := 0, max_retries := 3,
                error_message := none, created_at := 0, updated_at := 0,
                result := some ⟨1, 1, "file"⟩ }] 0 =
        some { job_id := 0, file_path := "/done.pdf", status := .completed,
               retries := 0, max_retries := 3, error_message := none,
               created_at := 0, updated_at := 0,
               result := some ⟨1, 1, "file"⟩ }) ∧
      get_job (mark_processing
          [{ job_id := 0, file_path := "/done.pdf",
             status := JobStatus.completed, retries := 0, max_retries := 3,
             error_message := none, created_at := 0, updated_at := 0,
             result := some ⟨1, 1, "file"⟩ }] 0 5) 0 =
        some { job_id := 0, file_path := "/done.pdf", status := .processing,
               retries := 0, max_retries := 3, error_message := none,
               created_at := 0, updated_at := 5,
               result := some ⟨1, 1, "file"⟩ } := by
  refine ⟨by decide, ?_⟩
  have h := terminal_jobs_not_protected
    [{ job_id := 0, file_path := "/done.pdf", status := JobStatus.completed,
       retries := 0, max_retries := 3, error_message := none, created_at := 0,
       updated_at := 0, result := some ⟨1, 1, "file"⟩ }] 0 5 ⟨1, 1, "file"⟩ "e"
    { job_id := 0, file_path := "/done.pdf", status := .completed,
      retries := 0, max_retries := 3, error_message := none, created_at := 0,
      updated_at := 0, result := some ⟨1, 1, "file"⟩ }
    (by decide) (Or.inl rfl)
  simpa using h.1

/-! ## C3: `get_pending_job` is FIFO by `created_at` -/

/-- The ordering `get_pending_job` sorts by. -/
private def createdLe (a b : Job) : Prop := a.created_at ≤ b.created_at

private instance : DecidableRel createdLe := fun a b =>
  Nat.decLe a.created_at b.created_at

private instance : IsTotal Job createdLe := ⟨fun _ _ => Nat.le_total _ _⟩

private instance : IsTrans Job createdLe := ⟨fun _ _ _ => Nat.le_trans⟩

theorem get_pending_job_def (q : Store) :
    get_pending_job q =
      ((q.filter (fun j => j.status = .pending)).insertionSort createdLe).head? :=
  rfl

/-- C3: `get_pending_job` returns `none` exactly when no pending job exists;
a returned job is a pending job of the store with minimal `created_at` among
all pending jobs; and a pending job strictly older than every other pending
job is the one returned. -/
theorem get_pending_job_fifo (q : Store) :
    (get_pending_job q = none ↔ ∀ j ∈ q, j.status ≠ .pending) ∧
    (∀ j, get_pending_job q = some j →
      j ∈ q ∧ j.status = .pending ∧
        ∀ k ∈ q, k.status = .pending → j.created_at ≤ k.created_at) ∧
    (∀ j ∈ q, j.status = .pending →
      (∀ k ∈ q, k.status = .pending → k ≠ j → j.created_at < k.created_at) →
      get_pending_job q = some j) := by
  set pend := q.filter (fun j => j.status = .pending) with hpend
  have hperm : (pend.insertionSort createdLe).Perm pend :=
    List.perm_insertionSort createdLe pend
  have hsorted : List.Sorted createdLe (pend.insertionSort createdLe) :=
    List.sorted_insertionSort createdLe pend
  have hmem_pend : ∀ j, j ∈ pend ↔ j ∈ q ∧ j.status = .pending := by
    intro j
    simp [hpend, List.mem_filter]
  refine ⟨?_, ?_, ?_⟩
  · rw [get_pending_job_def, ← hpend]
    constructor
    · intro hnone j hj hstat
      have h0 : pend.insertionSort createdLe = [] :=
        List.head?_eq_none_iff.1 hnone
      have hnil : pend = [] := by
        have hlen : pend.length = 0 := by rw [← hperm.length_eq, h0]; rfl
        exact List.length_eq_zero.1 hlen
      have : j ∈ pend := (hmem_pend j).2 ⟨hj, hstat⟩
      rw [hnil] at this
      simp at this
    · intro hall
      rw [List.head?_eq_none_iff]
      have hnil : pend = [] := by
        cases hp : pend with
        | nil => rfl
        | cons a l =>
          have ha : a ∈ pend := by rw [hp]; exact List.mem_cons_self a l
          have := (hmem_pend a).1 ha
          exact absurd this.2 (hall a this.1)
      rw [hnil]
      rfl
  · intro j hj
    rw [get_pending_job_def, ← hpend] at hj
    cases hs : pend.insertionSort createdLe with
    | nil => rw [hs] at hj; simp at hj
    | cons a l =>
      rw [hs] at hj
      simp only [List.head?_cons, Option.some.injEq] at hj
      subst hj
      have hmem : a ∈ pend := hperm.subset (hs ▸ List.mem_cons_self a l)
      have hjq := (hmem_pend a).1 hmem
      refine ⟨hjq.1, hjq.2, fun k hk hkstat => ?_⟩
      have hkmem : k ∈ pend.insertionSort createdLe :=
        hperm.symm.subset ((hmem_pend k).2 ⟨hk, hkstat⟩)
      rw [hs] at hkmem
      cases List.mem_cons.1 hkmem with
      | inl h => exact h ▸ le_refl _
      | inr h => exact List.rel_of_sorted_cons (hs ▸ hsorted) k h
  · intro j hj hstat hstrict
    rw [get_pending_job_def, ← hpend]
    cases hs : pend.insertionSort createdLe with
    | nil =>
      have : j ∈ pend := (hmem_pend j).2 ⟨hj, hstat⟩
      have := hperm.symm.subset this
      rw [hs] at this
      simp at this
    | cons a l =>
      have hamem : a ∈ pend := hperm.subset (hs ▸ List.mem_cons_self a l)
      have haq := (hmem_pend a).1 hamem
      by_cases haj : a = j
      · subst haj
        rfl
      · have hlt : j.created_at < a.created_at :=
          hstrict a haq.1 haq.2 haj
        have hjmem : j ∈ pend.insertionSort createdLe :=
          hperm.symm.subset ((hmem_pend j).2 ⟨hj, hstat⟩)
        rw [hs] at hjmem
        cases List.mem_cons.1 hjmem with
        | inl h => exact absurd h.symm haj
        | inr h =>
          have : a.created_at ≤ j.created_at :=
            List.rel_of_sorted_cons (hs ▸ hsorted) j h
          omega

/-- Witness for C3: a store with one completed and two pending jobs; the
strictly oldest pending job is returned. -/
theorem get_pending_job_fifo_witness :
    get_pending_job
        [{ job_id := 0, file_path := "a", status := JobStatus.completed,
           retries := 0, max_retries := 3, error_message := none,
           created_at := 1, updated_at := 9, result := none },
         { job_id := 1, file_path := "b", status := JobStatus.pending,
           retries := 0, max_retries := 3, error_message := none,
           created_at := 7, updated_at := 7, result := none },
         { job_id := 2, file_path := "c", status := JobStatus.pending,
           retries := 0, max_retries := 3, error_message := none,
           created_at := 4, updated_at := 4, result := none }] =
      some { job_id := 2, file_path := "c", status := JobStatus.pending,
             retries := 0, max_retries := 3, error_message := none,
             created_at := 4, updated_at := 4, result := none } := by
  exact (get_pending_job_fifo _).2.2 _ (by decide) (by decide)
    (by decide)

/-! ## C9: reachable-store invariant -/

/-- Well-formedness the reachable stores maintain: ids are unique (the
`PRIMARY KEY`) and no job has overrun its retry budget. -/
def StoreWF (q : Store) : Prop :=
  (jobIds q).Nodup ∧ ∀ j ∈ q, j.retries ≤ j.max_retries

theorem storeWF_updateJob {q : Store} {id : Nat} {f : Job → Job}
    (hf : ∀ j, (f j).job_id = j.job_id)
    (hwf : StoreWF q) (hpres : ∀ j ∈ q, j.job_id = id → (f j).retries ≤ (f j).max_retries) :
    StoreWF (updateJob q id f) := by
  refine ⟨(jobIds_updateJob hf).symm ▸ hwf.1, fun j' hj' => ?_⟩
  obtain ⟨j, hj, rfl⟩ := List.mem_map.1 hj'
  by_cases h : j.job_id = id
  · rw [if_pos h]
    exact hpres j hj h
  · rw [if_neg h]
    exact hwf.2 j hj

theorem storeWF_applyOp {q : Store} (op : QOp) (hwf : StoreWF q) :
    StoreWF (applyOp q op) := by
  cases op with
  | enq id fp mr now =>
    show StoreWF (enqueue q id fp mr now)
    unfold enqueue
    by_cases h : id ∈ jobIds q
    · rw [if_pos h]; exact hwf
    · rw [if_neg h]
      constructor
      · rw [jobIds, List.map_append]
        exact List.nodup_append.2 ⟨hwf.1, List.nodup_singleton id,
          fun x hx hy => by
            simp only [List.map_cons, List.map_nil, List.mem_singleton] at hy
            exact h (hy ▸ hx)⟩
      · intro j hj
        cases List.mem_append.1 hj with
        | inl hjq => exact hwf.2 j hjq
        | inr hjnew =>
          have : j = { job_id := id, file_path := fp, status := .pending,
                       retries := 0, max_retries := mr, error_message := none,
                       created_at := now, updated_at := now, result := none } := by
            simpa using hjnew
          rw [this]
          exact Nat.zero_le mr
  | markProcessing id now =>
    exact storeWF_updateJob (fun _ => rfl) hwf (fun j hj _ => hwf.2 j hj)
  | markCompleted id res now =>
    exact storeWF_updateJob (fun _ => rfl) hwf (fun j hj _ => hwf.2 j hj)
  | markFailed id err now =>
    show StoreWF (mark_failed q id err now)
    cases hfound : get_job q id with
    | none => simp only [mark_failed, hfound]; exact hwf
    | some job =>
      have hjobmem : job ∈ q := get_job_mem hfound
      have hjobid : job.job_id = id := get_job_id hfound
      simp only [mark_failed, hfound]
      by_cases hlt : job.retries < job.max_retries
      · rw [if_pos hlt]
        refine storeWF_updateJob (fun _ => rfl) hwf (fun j hj hid => ?_)
        have : j = job :=
          List.inj_on_of_nodup_map hwf.1 hj hjobmem (by rw [hid, hjobid])
        subst this
        exact hlt
      · rw [if_neg hlt]
        exact storeWF_updateJob (fun _ => rfl) hwf (fun j hj _ => hwf.2 j hj)

theorem storeWF_runOps (ops : List QOp) {q : Store} (hwf : StoreWF q) :
    StoreWF (runOps q ops) := by
  induction ops generalizing q with
  | nil => exact hwf
  | cons op ops ih => exact ih (storeWF_applyOp op hwf)

/-- C9: along every sequence of store operations started from the empty
store (every submission carrying `max_retries ≥ 1`), every job in the
resulting store has a status among Pending/Processing/Completed/Failed and a
retry count between 0 and its `max_retries`. -/
theorem runOps_status_and_retry_invariant (ops : List QOp)
    (_h : enqMaxRetriesPos ops) :
    ∀ j ∈ runOps [] ops,
      (j.status = .pending ∨ j.status = .processing ∨ j.status = .completed ∨
        j.status = .failed) ∧ 0 ≤ j.retries ∧ j.retries ≤ j.max_retries := by
  intro j hj
  have hwf : StoreWF (runOps [] ops) :=
    storeWF_runOps ops ⟨List.nodup_nil, by simp⟩
  refine ⟨?_, Nat.zero_le _, hwf.2 j hj⟩
  cases j.status <;> simp

/-- Witness for C9: Scenario A's operation sequence (submit with
`max_retries = 2`, then three failures) is admissible and its final store
satisfies the invariant. -/
theorem runOps_status_and_retry_invariant_witness :
    enqMaxRetriesPos
        [QOp.enq 0 "/cv.pdf" 2 10, QOp.markProcessing 0 11,
         QOp.markFailed 0 "err one" 11, QOp.markProcessing 0 12,
         QOp.markFailed 0 "err two" 12, QOp.markProcessing 0 13,
         QOp.markFailed 0 "err three" 13] ∧
      ∀ j ∈ runOps []
          [QOp.enq 0 "/cv.pdf" 2 10, QOp.markProcessing 0 11,
           QOp.markFailed 0 "err one" 11, QOp.markProcessing 0 12,
           QOp.markFailed 0 "err two" 12, QOp.markProcessing 0 13,
           QOp.markFailed 0 "err three" 13],
        (j.status = .pending ∨ j.status = .processing ∨ j.status = .completed ∨
          j.status = .failed) ∧ 0 ≤ j.retries ∧ j.retries ≤ j.max_retries :=
  ⟨by decide, runOps_status_and_retry_invariant _ (by decide)⟩

/-! ## C5: per-unit failures never fail a job; only a whole-pipeline
exception does, and `process_job` always returns -/

/-- C5: for a stored job whose target resolves (is a file or directory) to at
least one loadable unit, `process_job` marks the job `Completed` no matter
how many per-unit extract/write failures occurred — they are visible only in
the `documents_parsed` count and the artifact list — and reports
`documents_loaded`, `documents_parsed` and the target kind in `result`.
`mark_failed` is invoked only when the whole-pipeline `FileNotFoundError` is
raised (target neither file nor directory); and `process_job` is a total
function — no exception escapes it. -/
theorem process_job_tolerates_unit_failures (q : Store) (id now : Nat)
    (env : PipelineEnv) (job : Job) (h : get_job q id = some job)
    (hkind : env.kind ≠ .missing) (_hunits : loadedDocs env ≠ []) :
    (process_job q id env now).2.1 = true ∧
    get_job (process_job q id env now).1 id =
      some { job with
             status := .completed, updated_at := now, error_message := none,
             result := some { documents_loaded := (loadedDocs env).length,
                              documents_parsed := ((loadedDocs env).filter
                                (fun u => u.parseOk)).length,
                              typ := if env.kind = .dir then "directory"
                                else "file" } } ∧
    (process_job q id env now).2.2 =
      ((loadedDocs env).filter (fun u => u.parseOk)).map
        (fun u => outPath u.name) ∧
    (∀ env' : PipelineEnv, env'.kind = .missing →
      process_job q id env' now =
        (mark_failed (mark_processing q id now) id
          ("FileNotFoundError: Path does not exist: " ++ job.file_path) now,
         false, [])) := by
  have hget1 : get_job (mark_processing q id now) id =
      some { job with status := .processing, updated_at := now } := by
    unfold mark_processing
    have hup := @get_job_updateJob_self q id
      (fun j => { j with status := .processing, updated_at := now })
      (fun _ => rfl)
    rw [hup, h]
    rfl
  refine ?_
  cases hk : env.kind with
  | missing => exact absurd hk hkind
  | dir =>
    refine ⟨?_, ?_, ?_, ?_⟩
    · simp [process_job, h, hk]
    · simp [process_job, h, hk]
      unfold mark_completed
      have hup := @get_job_updateJob_self (mark_processing q id now) id
        (fun j => { j with
                    status := .completed, updated_at := now,
                    result := some { documents_loaded :=
                                       (loadedDocs env).length,
                                     documents_parsed :=
                                       ((loadedDocs env).filter
                                         (fun u => u.parseOk)).length,
                                     typ := "directory" },
                    error_message := none })
        (fun _ => rfl)
      rw [hup, hget1]
      rfl
    · simp [process_job, h, hk]
    · intro env' hk'
      simp [process_job, h, hk']
  | file =>
    refine ⟨?_, ?_, ?_, ?_⟩
    · simp [process_job, h, hk]
    · simp [process_job, h, hk]
      unfold mark_completed
      have hup := @get_job_updateJob_self (mark_processing q id now) id
        (fun j => { j with
                    status := .completed, updated_at := now,
                    result := some { documents_loaded :=
                                       (loadedDocs env).length,
                                     documents_parsed :=
                                       ((loadedDocs env).filter
                                         (fun u => u.parseOk)).length,
                                     typ := "file" },
                    error_message := none })
        (fun _ => rfl)
      rw [hup, hget1]
      rfl
    · simp [process_job, h, hk]
    · intro env' hk'
      simp [process_job, h, hk']

/-- Witness for C5: a directory job with three candidate units — one loads
and parses, one fails to load, one loads but fails to parse — still
completes, with `documents_loaded = 2` and `documents_parsed = 1`. -/
theorem process_job_tolerates_unit_failures_witness :
    (get_job (enqueue [] 6 "/dir" 3 0) 6 =
        some { job_id := 6, file_path := "/dir", status := .pending,
               retries := 0, max_retries := 3, error_message := none,
               created_at := 0, updated_at := 0, result := none }) ∧
      (PipelineEnv.mk .dir
          [⟨"u1.pdf", some "text one", true⟩, ⟨"u2.pdf", none, true⟩,
           ⟨"u3.pdf", some "text three", false⟩]).kind ≠ PathKind.missing ∧
      get_job (process_job (enqueue [] 6 "/dir" 3 0) 6
          (PipelineEnv.mk .dir
            [⟨"u1.pdf", some "text one", true⟩, ⟨"u2.pdf", none, true⟩,
             ⟨"u3.pdf", some "text three", false⟩]) 1).1 6 =
        some { job_id := 6, file_path := "/dir", status := .completed,
               retries := 0, max_retries := 3, error_message := none,
               created_at := 0, updated_at := 1,
               result := some { documents_loaded := 2, documents_parsed := 1,
                                typ := "directory" } } := by
  refine ⟨by decide, by decide, ?_⟩
  have hc := process_job_tolerates_unit_failures (enqueue [] 6 "/dir" 3 0) 6 1
    (PipelineEnv.mk .dir
      [⟨"u1.pdf", some "text one", true⟩, ⟨"u2.pdf", none, true⟩,
       ⟨"u3.pdf", some "text three", false⟩])
    { job_id := 6, file_path := "/dir", status := .pending, retries := 0,
      max_retries := 3, error_message := none, created_at := 0,
      updated_at := 0, result := none } (by decide) (by decide) (by decide)
  simpa using hc.2.1

/-! ## Lemmas about the dedupe scan and grouping -/

theorem mem_firstOccs {x : String} : ∀ {l : List String},
    x ∈ firstOccs l ↔ x ∈ l := by
  intro l
  induction l with
  | nil => simp [firstOccs]
  | cons k ks ih =>
    simp only [firstOccs, List.mem_cons, List.mem_filter]
    constructor
    · rintro (rfl | ⟨hx, _⟩)
      · exact .inl rfl
      · exact .inr (ih.1 hx)
    · rintro (rfl | hx)
      · exact .inl rfl
      · by_cases hk : x = k
        · exact .inl hk
        · exact .inr ⟨ih.2 hx, by simpa using hk⟩

theorem firstOccs_nodup : ∀ (l : List String), (firstOccs l).Nodup := by
  intro l
  induction l with
  | nil => exact List.nodup_nil
  | cons k ks ih =>
    refine List.nodup_cons.2 ⟨?_, ih.filter _⟩
    intro hk
    have := (List.mem_filter.1 hk).2
    simp at this

theorem sortByName_perm (l : List Artifact) : (sortByName l).Perm l :=
  List.perm_insertionSort _ l

theorem sortByMtimeDesc_perm (l : List Artifact) : (sortByMtimeDesc l).Perm l :=
  List.perm_insertionSort _ l

theorem mem_scanFiles {arts : List Artifact} {mv : List Nat} {a : Artifact} :
    a ∈ scanFiles arts mv ↔ a ∈ arts ∧ a.name ∉ mv := by
  unfold scanFiles
  rw [(sortByName_perm _).mem_iff, List.mem_filter]
  simp

theorem scanFiles_names_nodup {arts : List Artifact} {mv : List Nat}
    (h : (arts.map Artifact.name).Nodup) :
    ((scanFiles arts mv).map Artifact.name).Nodup := by
  unfold scanFiles
  have hperm : ((sortByName (arts.filter (fun a => a.name ∉ mv))).map
      Artifact.name).Perm ((arts.filter (fun a => a.name ∉ mv)).map
        Artifact.name) :=
    (sortByName_perm _).map _
  rw [hperm.nodup_iff]
  exact (List.filter_sublist arts).map Artifact.name |>.nodup h

theorem mem_groupOf {key : Artifact → Option String} {files : List Artifact}
    {kk : String} {a : Artifact} :
    a ∈ groupOf key files kk ↔ a ∈ files ∧ key a = some kk := by
  unfold groupOf
  rw [List.mem_filter]
  simp

theorem groupOf_names_nodup {key : Artifact → Option String}
    {files : List Artifact} {kk : String}
    (h : (files.map Artifact.name).Nodup) :
    ((groupOf key files kk).map Artifact.name).Nodup :=
  ((List.filter_sublist files).map Artifact.name).nodup h

theorem key_mem_keysFor {key : Artifact → Option String}
    {files : List Artifact} {kk : String} {a : Artifact} (ha : a ∈ files)
    (hk : key a = some kk) : kk ∈ keysFor key files := by
  unfold keysFor
  exact mem_firstOccs.2 (List.mem_filterMap.2 ⟨a, ha, hk⟩)

theorem two_le_length_of_mem_ne {l : List Artifact} {a b : Artifact}
    (ha : a ∈ l) (hb : b ∈ l) (hne : a ≠ b) : 2 ≤ l.length := by
  cases l with
  | nil => simp at ha
  | cons x t =>
    cases t with
    | nil =>
      simp only [List.mem_singleton] at ha hb
      exact absurd (ha.trans hb.symm) hne
    | cons y t' => simp [Nat.succ_le_succ, Nat.le_add_left]

theorem names_inj {files : List Artifact}
    (hnodup : (files.map Artifact.name).Nodup) {a b : Artifact}
    (ha : a ∈ files) (hb : b ∈ files) (he : a.name = b.name) : a = b :=
  List.inj_on_of_nodup_map hnodup ha hb he

/-! ## Lemmas about `processGroups` -/

section ProcessGroups

variable {key : Artifact → Option String} {files : List Artifact}

theorem processGroups_ok_sub : ∀ {ks : List String} {m k r m' k' r' : List Nat},
    processGroups key files ks m k r = .ok m' k' r' →
    (∀ x ∈ m, x ∈ m') ∧ (∀ x ∈ r, x ∈ r') := by
  intro ks
  induction ks with
  | nil =>
    intro m k r m' k' r' h
    simp only [processGroups, DedupeOutcome.ok.injEq] at h
    obtain ⟨rfl, -, rfl⟩ := h
    exact ⟨fun x hx => hx, fun x hx => hx⟩
  | cons kk0 ks ih =>
    intro m k r m' k' r' h
    simp only [processGroups] at h
    by_cases h1 : (groupOf key files kk0).length ≤ 1
    · rw [if_pos h1] at h
      exact ih h
    · rw [if_neg h1] at h
      by_cases h2 : (groupOf key files kk0).any (fun a => a.name ∈ m)
      · rw [if_pos h2] at h
        simp at h
      · rw [if_neg h2] at h
        cases hs : sortByMtimeDesc (groupOf key files kk0) with
        | nil =>
          rw [hs] at h
          exact ih h
        | cons kp rest =>
          rw [hs] at h
          have hsub := ih h
          exact ⟨fun x hx => hsub.1 x (List.mem_append.2 (.inl hx)),
                 fun x hx => hsub.2 x (List.mem_append.2 (.inl hx))⟩

theorem processGroups_err_of_moved :
    ∀ {ks : List String} {m k r : List Nat},
    (∃ kk ∈ ks, 2 ≤ (groupOf key files kk).length ∧
      ∃ a ∈ groupOf key files kk, a.name ∈ m) →
    ∃ m'', processGroups key files ks m k r = .err m'' := by
  intro ks
  induction ks with
  | nil =>
    intro m k r h
    obtain ⟨kk, hkk, -⟩ := h
    simp at hkk
  | cons kk0 ks ih =>
    intro m k r h
    obtain ⟨kk, hkk, hsize, a, ha, ham⟩ := h
    simp only [processGroups]
    by_cases h1 : (groupOf key files kk0).length ≤ 1
    · rw [if_pos h1]
      have hne : kk ≠ kk0 := by
        intro e
        subst e
        omega
      have hkk' : kk ∈ ks := by
        cases List.mem_cons.1 hkk with
        | inl e => exact absurd e hne
        | inr hm => exact hm
      exact ih ⟨kk, hkk', hsize, a, ha, ham⟩
    · rw [if_neg h1]
      by_cases h2 : (groupOf key files kk0).any (fun a => a.name ∈ m)
      · rw [if_pos h2]
        exact ⟨m, rfl⟩
      · rw [if_neg h2]
        have hkk' : kk ∈ ks := by
          cases List.mem_cons.1 hkk with
          | inl e =>
            subst e
            have : (groupOf key files kk).any (fun a => a.name ∈ m) := by
              rw [List.any_eq_true]
              exact ⟨a, ha, by simpa using ham⟩
            exact absurd this h2
          | inr hm => exact hm
        cases hs : sortByMtimeDesc (groupOf key files kk0) with
        | nil => exact ih ⟨kk, hkk', hsize, a, ha, ham⟩
        | cons kp rest =>
          exact ih ⟨kk, hkk', hsize, a, ha,
            List.mem_append.2 (.inl ham)⟩

theorem processGroups_ok_not_moved {ks : List String} {m k r m' k' r' : List Nat}
    (h : processGroups key files ks m k r = .ok m' k' r') {kk : String}
    (hkk : kk ∈ ks) (hsize : 2 ≤ (groupOf key files kk).length) :
    ∀ a ∈ groupOf key files kk, a.name ∉ m := by
  intro a ha ham
  obtain ⟨m'', he⟩ :=
    processGroups_err_of_moved (k := k) (r := r) ⟨kk, hkk, hsize, a, ha, ham⟩
  rw [h] at he
  simp at he

theorem processGroups_nonkeeper_moved :
    ∀ {ks : List String} {m k r m' k' r' : List Nat},
    processGroups key files ks m k r = .ok m' k' r' →
    ∀ {kk : String}, kk ∈ ks → 2 ≤ (groupOf key files kk).length →
    ∀ {kp : Artifact} {rest : List Artifact},
      sortByMtimeDesc (groupOf key files kk) = kp :: rest →
    ∀ a ∈ rest, a.name ∈ m' ∧ a.name ∈ r' := by
  intro ks
  induction ks with
  | nil =>
    intro m k r m' k' r' _ kk hkk
    simp at hkk
  | cons kk0 ks ih =>
    intro m k r m' k' r' h kk hkk hsize kp rest hs a ha
    simp only [processGroups] at h
    by_cases h1 : (groupOf key files kk0).length ≤ 1
    · rw [if_pos h1] at h
      have hne : kk ≠ kk0 := fun e => by subst e; omega
      have hkk' : kk ∈ ks := by
        cases List.mem_cons.1 hkk with
        | inl e => exact absurd e hne
        | inr hm => exact hm
      exact ih h hkk' hsize hs a ha
    · rw [if_neg h1] at h
      by_cases h2 : (groupOf key files kk0).any (fun x => x.name ∈ m)
      · rw [if_pos h2] at h
        simp at h
      · rw [if_neg h2] at h
        cases hs0 : sortByMtimeDesc (groupOf key files kk0) with
        | nil =>
          rw [hs0] at h
          have hkk' : kk ∈ ks := by
            cases List.mem_cons.1 hkk with
            | inl e =>
              subst e
              rw [hs] at hs0
              simp at hs0
            | inr hm => exact hm
          exact ih h hkk' hsize hs a ha
        | cons kp0 rest0 =>
          rw [hs0] at h
          cases List.mem_cons.1 hkk with
          | inl e =>
            subst e
            rw [hs] at hs0
            obtain ⟨rfl, rfl⟩ : kp = kp0 ∧ rest = rest0 := by
              injection hs0 with h1' h2'
              exact ⟨h1', h2'⟩
            have hmem : a.name ∈ m ++ rest.map Artifact.name :=
              List.mem_append.2 (.inr (List.mem_map_of_mem _ ha))
            have hmemr : a.name ∈ r ++ rest.map Artifact.name :=
              List.mem_append.2 (.inr (List.mem_map_of_mem _ ha))
            exact ⟨(processGroups_ok_sub h).1 _ hmem,
                   (processGroups_ok_sub h).2 _ hmemr⟩
          | inr hkk' =>
            exact ih h hkk' hsize hs a ha

theorem processGroups_moved_source :
    ∀ {ks : List String} {m k r m' k' r' : List Nat},
    processGroups key files ks m k r = .ok m' k' r' →
    ∀ x ∈ m', x ∈ m ∨
      ∃ kk ∈ ks, 2 ≤ (groupOf key files kk).length ∧
        ∃ kp rest, sortByMtimeDesc (groupOf key files kk) = kp :: rest ∧
          ∃ a ∈ rest, a.name = x := by
  intro ks
  induction ks with
  | nil =>
    intro m k r m' k' r' h x hx
    simp only [processGroups, DedupeOutcome.ok.injEq] at h
    obtain ⟨rfl, -, -⟩ := h
    exact .inl hx
  | cons kk0 ks ih =>
    intro m k r m' k' r' h x hx
    simp only [processGroups] at h
    by_cases h1 : (groupOf key files kk0).length ≤ 1
    · rw [if_pos h1] at h
      cases ih h x hx with
      | inl hm => exact .inl hm
      | inr hrest =>
        obtain ⟨kk, hkk, hrest⟩ := hrest
        exact .inr ⟨kk, List.mem_cons.2 (.inr hkk), hrest⟩
    · rw [if_neg h1] at h
      by_cases h2 : (groupOf key files kk0).any (fun a => a.name ∈ m)
      · rw [if_pos h2] at h
        simp at h
      · rw [if_neg h2] at h
        cases hs0 : sortByMtimeDesc (groupOf key files kk0) with
        | nil =>
          rw [hs0] at h
          cases ih h x hx with
          | inl hm => exact .inl hm
          | inr hrest =>
            obtain ⟨kk, hkk, hrest⟩ := hrest
            exact .inr ⟨kk, List.mem_cons.2 (.inr hkk), hrest⟩
        | cons kp0 rest0 =>
          rw [hs0] at h
          cases ih h x hx with
          | inl hm =>
            cases List.mem_append.1 hm with
            | inl hmm => exact .inl hmm
            | inr hr0 =>
              obtain ⟨a, ha, hax⟩ := List.mem_map.1 hr0
              exact .inr ⟨kk0, List.mem_cons_self _ _,
                by omega, kp0, rest0, hs0, a, ha, hax⟩
          | inr hrest =>
            obtain ⟨kk, hkk, hrest⟩ := hrest
            exact .inr ⟨kk, List.mem_cons.2 (.inr hkk), hrest⟩

theorem processGroups_removed_source :
    ∀ {ks : List String} {m k r m' k' r' : List Nat},
    processGroups key files ks m k r = .ok m' k' r' →
    ∀ x ∈ r', x ∈ r ∨
      ∃ kk ∈ ks, 2 ≤ (groupOf key files kk).length ∧
        ∃ kp rest, sortByMtimeDesc (groupOf key files kk) = kp :: rest ∧
          ∃ a ∈ rest, a.name = x := by
  intro ks
  induction ks with
  | nil =>
    intro m k r m' k' r' h x hx
    simp only [processGroups, DedupeOutcome.ok.injEq] at h
    obtain ⟨-, -, rfl⟩ := h
    exact .inl hx
  | cons kk0 ks ih =>
    intro m k r m' k' r' h x hx
    simp only [processGroups] at h
    by_cases h1 : (groupOf key files kk0).length ≤ 1
    · rw [if_pos h1] at h
      cases ih h x hx with
      | inl hm => exact .inl hm
      | inr hrest =>
        obtain ⟨kk, hkk, hrest⟩ := hrest
        exact .inr ⟨kk, List.mem_cons.2 (.inr hkk), hrest⟩
    · rw [if_neg h1] at h
      by_cases h2 : (groupOf key files kk0).any (fun a => a.name ∈ m)
      · rw [if_pos h2] at h
        simp at h
      · rw [if_neg h2] at h
        cases hs0 : sortByMtimeDesc (groupOf key files kk0) with
        | nil =>
          rw [hs0] at h
          cases ih h x hx with
          | inl hm => exact .inl hm
          | inr hrest =>
            obtain ⟨kk, hkk, hrest⟩ := hrest
            exact .inr ⟨kk, List.mem_cons.2 (.inr hkk), hrest⟩
        | cons kp0 rest0 =>
          rw [hs0] at h
          cases ih h x hx with
          | inl hm =>
            cases List.mem_append.1 hm with
            | inl hmm => exact .inl hmm
            | inr hr0 =>
              obtain ⟨a, ha, hax⟩ := List.mem_map.1 hr0
              exact .inr ⟨kk0, List.mem_cons_self _ _,
                by omega, kp0, rest0, hs0, a, ha, hax⟩
          | inr hrest =>
            obtain ⟨kk, hkk, hrest⟩ := hrest
            exact .inr ⟨kk, List.mem_cons.2 (.inr hkk), hrest⟩

theorem processGroups_keeper_not_moved {ks : List String}
    {m k r m' k' r' : List Nat}
    (h : processGroups key files ks m k r = .ok m' k' r')
    (hnodup : (files.map Artifact.name).Nodup) {kk : String} (hkk : kk ∈ ks)
    (hsize : 2 ≤ (groupOf key files kk).length) {kp : Artifact}
    {rest : List Artifact}
    (hs : sortByMtimeDesc (groupOf key files kk) = kp :: rest) :
    kp.name ∉ m' := by
  intro hinm'
  have hkpg : kp ∈ groupOf key files kk :=
    (sortByMtimeDesc_perm _).subset (hs ▸ List.mem_cons_self kp rest)
  have hkpnotm : kp.name ∉ m :=
    processGroups_ok_not_moved h hkk hsize kp hkpg
  cases processGroups_moved_source h kp.name hinm' with
  | inl hm => exact hkpnotm hm
  | inr hsrc =>
    obtain ⟨kk', hkk', hsize', kp', rest', hs', a, ha, haname⟩ := hsrc
    have hag : a ∈ groupOf key files kk' :=
      (sortByMtimeDesc_perm _).subset (hs' ▸ List.mem_cons.2 (.inr ha))
    have hafiles := (mem_groupOf.1 hag).1
    have hkpfiles := (mem_groupOf.1 hkpg).1
    have heq : a = kp := names_inj hnodup hafiles hkpfiles haname
    subst heq
    have hkeys : kk' = kk := by
      have h1 := (mem_groupOf.1 hag).2
      have h2 := (mem_groupOf.1 hkpg).2
      rw [h1] at h2
      injection h2
    subst hkeys
    rw [hs] at hs'
    injection hs' with e1 e2
    subst e1
    subst e2
    have hsortnodup : ((sortByMtimeDesc (groupOf key files kk')).map
        Artifact.name).Nodup := by
      have hgnodup : ((groupOf key files kk').map Artifact.name).Nodup :=
        groupOf_names_nodup hnodup
      exact ((sortByMtimeDesc_perm _).map Artifact.name).nodup_iff.2 hgnodup
    rw [hs] at hsortnodup
    simp only [List.map_cons, List.nodup_cons] at hsortnodup
    exact hsortnodup.1 (List.mem_map_of_mem _ ha)

theorem processGroups_all_small :
    ∀ {ks : List String} {m k r : List Nat},
    (∀ kk ∈ ks, (groupOf key files kk).length ≤ 1) →
    ∃ k'', processGroups key files ks m k r = .ok m k'' r := by
  intro ks
  induction ks with
  | nil =>
    intro m k r _
    exact ⟨k, rfl⟩
  | cons kk0 ks ih =>
    intro m k r hsmall
    simp only [processGroups]
    rw [if_pos (hsmall kk0 (List.mem_cons_self _ _))]
    exact ih fun kk hkk => hsmall kk (List.mem_cons.2 (.inr hkk))

theorem processGroups_ok_of_groups_fresh :
    ∀ {ks : List String} {m k r : List Nat},
    (files.map Artifact.name).Nodup → ks.Nodup →
    (∀ kk ∈ ks, ∀ a ∈ groupOf key files kk, a.name ∉ m) →
    ∃ m' k' r', processGroups key files ks m k r = .ok m' k' r' := by
  intro ks
  induction ks with
  | nil =>
    intro m k r _ _ _
    exact ⟨m, k, r, rfl⟩
  | cons kk0 ks ih =>
    intro m k r hnodup hks hfresh
    have hks0 : kk0 ∉ ks := (List.nodup_cons.1 hks).1
    have hks' : ks.Nodup := (List.nodup_cons.1 hks).2
    simp only [processGroups]
    by_cases h1 : (groupOf key files kk0).length ≤ 1
    · rw [if_pos h1]
      exact ih hnodup hks' fun kk hkk a ha =>
        hfresh kk (List.mem_cons.2 (.inr hkk)) a ha
    · rw [if_neg h1]
      have h2 : ¬ (groupOf key files kk0).any (fun a => a.name ∈ m) := by
        rw [List.any_eq_true]
        push_neg
        intro a ha
        simpa using hfresh kk0 (List.mem_cons_self _ _) a ha
      rw [if_neg h2]
      cases hs0 : sortByMtimeDesc (groupOf key files kk0) with
      | nil =>
        exact ih hnodup hks' fun kk hkk a ha =>
          hfresh kk (List.mem_cons.2 (.inr hkk)) a ha
      | cons kp0 rest0 =>
        refine ih hnodup hks' fun kk hkk a ha hmem => ?_
        cases List.mem_append.1 hmem with
        | inl hm => exact hfresh kk (List.mem_cons.2 (.inr hkk)) a ha hm
        | inr hr0 =>
          obtain ⟨b, hb, hbname⟩ := List.mem_map.1 hr0
          have hbg : b ∈ groupOf key files kk0 :=
            (sortByMtimeDesc_perm _).subset (hs0 ▸ List.mem_cons.2 (.inr hb))
          have heq : a = b := names_inj hnodup (mem_groupOf.1 ha).1
            (mem_groupOf.1 hbg).1 hbname.symm
          subst heq
          have hk1 := (mem_groupOf.1 ha).2
          have hk2 := (mem_groupOf.1 hbg).2
          rw [hk1] at hk2
          have : kk = kk0 := by injection hk2
          subst this
          exact hks0 hkk

end ProcessGroups

/-! ## Run-level dedupe lemmas -/

theorem emailPhase_never_raises (arts : List Artifact) (moved0 : List Nat)
    (hnodup : (arts.map Artifact.name).Nodup) :
    ∃ m1 k1 r1, emailPhase arts moved0 = .ok m1 k1 r1 := by
  unfold emailPhase keysFor
  refine processGroups_ok_of_groups_fresh (scanFiles_names_nodup hnodup)
    (firstOccs_nodup _) ?_
  intro kk _ a ha ham
  exact (mem_scanFiles.1 (mem_groupOf.1 ha).1).2 ham

theorem nodup_of_names_nodup {l : List Artifact}
    (h : (l.map Artifact.name).Nodup) : l.Nodup :=
  h.of_map _

theorem exists_pair_of_two_le_length {l : List Artifact} (hn : l.Nodup)
    (hl : 2 ≤ l.length) : ∃ a b, a ∈ l ∧ b ∈ l ∧ a ≠ b := by
  cases l with
  | nil => simp at hl
  | cons x t =>
    cases t with
    | nil => simp at hl
    | cons y t' =>
      refine ⟨x, y, List.mem_cons_self _ _,
        List.mem_cons.2 (.inr (List.mem_cons_self _ _)), ?_⟩
      intro e
      have := (List.nodup_cons.1 hn).1
      exact this (e ▸ List.mem_cons_self y t')

theorem sort_cons_of_two_le {g : List Artifact} (h : 2 ≤ g.length) :
    ∃ kp rest, sortByMtimeDesc g = kp :: rest := by
  cases hs : sortByMtimeDesc g with
  | nil =>
    have := (sortByMtimeDesc_perm g).length_eq
    rw [hs] at this
    simp at this
    omega
  | cons kp rest => exact ⟨kp, rest, rfl⟩

/-- What a completed `run_dedupe` guarantees: the pre-run `moved0` set is
preserved; every non-keeper of a size-≥ 2 group of either map is relocated
and listed in `removed`; every keeper of a size-≥ 2 *phone* group is still in
place; and everything in `removed` is the non-keeper of some size-≥ 2
group. -/
theorem run_dedupe_ok_spec (arts : List Artifact)
    (moved0 m2 kept removed : List Nat)
    (hnodup : (arts.map Artifact.name).Nodup)
    (hok : run_dedupe arts moved0 = .ok m2 kept removed) :
    (∀ x ∈ moved0, x ∈ m2) ∧
    (∀ key : Artifact → Option String,
      key = emailKeyOf ∨ key = phoneKeyOf →
      ∀ kk ∈ keysFor key (scanFiles arts moved0),
        2 ≤ (groupOf key (scanFiles arts moved0) kk).length →
        ∀ kp rest,
          sortByMtimeDesc (groupOf key (scanFiles arts moved0) kk) =
            kp :: rest →
          ∀ a ∈ rest, a.name ∈ m2 ∧ a.name ∈ removed) ∧
    (∀ kk ∈ keysFor phoneKeyOf (scanFiles arts moved0),
      2 ≤ (groupOf phoneKeyOf (scanFiles arts moved0) kk).length →
      ∀ kp rest,
        sortByMtimeDesc (groupOf phoneKeyOf (scanFiles arts moved0) kk) =
          kp :: rest →
        kp.name ∉ m2) ∧
    (∀ x ∈ removed,
      (∃ kk ∈ keysFor emailKeyOf (scanFiles arts moved0),
        2 ≤ (groupOf emailKeyOf (scanFiles arts moved0) kk).length ∧
        ∃ kp rest,
          sortByMtimeDesc (groupOf emailKeyOf (scanFiles arts moved0) kk) =
            kp :: rest ∧ ∃ a ∈ rest, a.name = x) ∨
      (∃ kk ∈ keysFor phoneKeyOf (scanFiles arts moved0),
        2 ≤ (groupOf phoneKeyOf (scanFiles arts moved0) kk).length ∧
        ∃ kp rest,
          sortByMtimeDesc (groupOf phoneKeyOf (scanFiles arts moved0) kk) =
            kp :: rest ∧ ∃ a ∈ rest, a.name = x)) := by
  unfold run_dedupe at hok
  cases hE : emailPhase arts moved0 with
  | err mE =>
    rw [hE] at hok
    simp at hok
  | ok mE kE rE =>
    rw [hE] at hok
    simp only at hok
    cases hP : processGroups phoneKeyOf (scanFiles arts moved0)
        (keysFor phoneKeyOf (scanFiles arts moved0)) mE kE rE with
    | err mP =>
      rw [hP] at hok
      simp at hok
    | ok mP kP rP =>
      rw [hP] at hok
      simp only [DedupeOutcome.ok.injEq] at hok
      obtain ⟨rfl, -, rfl⟩ := hok
      have hEpg : processGroups emailKeyOf (scanFiles arts moved0)
          (keysFor emailKeyOf (scanFiles arts moved0)) moved0 [] [] =
            .ok mE kE rE := hE
      refine ⟨?_, ?_, ?_, ?_⟩
      · intro x hx
        exact (processGroups_ok_sub hP).1 x ((processGroups_ok_sub hEpg).1 x hx)
      · rintro key (rfl | rfl) kk hkk hsize kp rest hs a ha
        · have hm := processGroups_nonkeeper_moved hEpg hkk hsize hs a ha
          exact ⟨(processGroups_ok_sub hP).1 _ hm.1,
                 (processGroups_ok_sub hP).2 _ hm.2⟩
        · exact processGroups_nonkeeper_moved hP hkk hsize hs a ha
      · intro kk hkk hsize kp rest hs
        exact processGroups_keeper_not_moved hP
          (scanFiles_names_nodup hnodup) hkk hsize hs
      · intro x hx
        cases processGroups_removed_source hP x hx with
        | inl hrE =>
          cases processGroups_removed_source hEpg x hrE with
          | inl habs => simp at habs
          | inr hsrc => exact .inl hsrc
        | inr hsrc => exact .inr hsrc

/-! ## C6: which artifact of a duplicate group survives -/

/-- C6 counterexample: take `A = (name 0, mtime 3, email e, phone p)`,
`B = (name 1, mtime 1, email e, no phone)`, `C = (name 2, mtime 5, no email,
phone p)`.  The run completes, the email group `{A, B}` keeps `A` (latest),
but the phone group `{A, C}` then relocates `A` — so the latest member of the
email group does *not* stay in place, refuting the claim even for runs that
complete. -/
theorem dedupe_keeps_latest_counterexample : ¬ dedupeKeepsLatestClaim := by
  intro h
  have hc := h [⟨0, 3, some "a@x.com", some "123"⟩,
                ⟨1, 1, some "a@x.com", none⟩,
                ⟨2, 5, none, some "123"⟩] [] [1, 0] [2] [1, 0]
    (by decide) emailKeyOf (List.mem_cons_self _ _) "a@x.com" (by decide)
    (by decide) ⟨0, 3, some "a@x.com", some "123"⟩
    [⟨1, 1, some "a@x.com", none⟩] (by decide)
  exact hc.1 (by decide)

/-- C6 (amended): in a completed run over a directory with distinct file
names, every non-keeper of a size-≥ 2 email group is relocated to quarantine
(but the email keeper may itself be relocated later by a phone group); within
every size-≥ 2 phone group the latest-mtime member stays in place and the
rest are relocated; nothing is relocated except as the non-latest member of
some size-≥ 2 group (so groups of size 1 trigger no relocation of their own);
and Scenario C holds: two artifacts sharing only a normalized email with
mtimes 1 < 2 end with the newer in place and the older quarantined. -/
theorem dedupe_group_resolution (arts : List Artifact)
    (moved0 m2 kept removed : List Nat)
    (hnodup : (arts.map Artifact.name).Nodup)
    (hok : run_dedupe arts moved0 = .ok m2 kept removed) :
    (∀ kk ∈ keysFor emailKeyOf (scanFiles arts moved0),
      2 ≤ (groupOf emailKeyOf (scanFiles arts moved0) kk).length →
      ∀ kp rest,
        sortByMtimeDesc (groupOf emailKeyOf (scanFiles arts moved0) kk) =
          kp :: rest →
        ∀ a ∈ rest, a.name ∈ m2 ∧ a.name ∈ removed) ∧
    (∀ kk ∈ keysFor phoneKeyOf (scanFiles arts moved0),
      2 ≤ (groupOf phoneKeyOf (scanFiles arts moved0) kk).length →
      ∀ kp rest,
        sortByMtimeDesc (groupOf phoneKeyOf (scanFiles arts moved0) kk) =
          kp :: rest →
        kp.name ∉ m2 ∧ ∀ a ∈ rest, a.name ∈ m2 ∧ a.name ∈ removed) ∧
    (∀ x ∈ removed,
      (∃ kk ∈ keysFor emailKeyOf (scanFiles arts moved0),
        2 ≤ (groupOf emailKeyOf (scanFiles arts moved0) kk).length ∧
        ∃ kp rest,
          sortByMtimeDesc (groupOf emailKeyOf (scanFiles arts moved0) kk) =
            kp :: rest ∧ ∃ a ∈ rest, a.name = x) ∨
      (∃ kk ∈ keysFor phoneKeyOf (scanFiles arts moved0),
        2 ≤ (groupOf phoneKeyOf (scanFiles arts moved0) kk).length ∧
        ∃ kp rest,
          sortByMtimeDesc (groupOf phoneKeyOf (scanFiles arts moved0) kk) =
            kp :: rest ∧ ∃ a ∈ rest, a.name = x)) ∧
    run_dedupe [⟨0, 1, some "A@x.com ", none⟩, ⟨1, 2, some "a@x.com", none⟩]
        [] = .ok [0] [1] [0] := by
  have hspec := run_dedupe_ok_spec arts moved0 m2 kept removed hnodup hok
  refine ⟨?_, ?_, hspec.2.2.2, by decide⟩
  · intro kk hkk hsize kp rest hs a ha
    exact hspec.2.1 emailKeyOf (.inl rfl) kk hkk hsize kp rest hs a ha
  · intro kk hkk hsize kp rest hs
    exact ⟨hspec.2.2.1 kk hkk hsize kp rest hs,
           fun a ha => hspec.2.1 phoneKeyOf (.inr rfl) kk hkk hsize kp rest hs
             a ha⟩

/-- Witness for C6 (amended): Scenario C's pair — the older artifact is
reported relocated by the theorem applied at that concrete directory. -/
theorem dedupe_group_resolution_witness :
    (([⟨0, 1, some "A@x.com ", none⟩,
       ⟨1, 2, some "a@x.com", none⟩] : List Artifact).map
        Artifact.name).Nodup ∧
    run_dedupe [⟨0, 1, some "A@x.com ", none⟩, ⟨1, 2, some "a@x.com", none⟩]
        [] = .ok [0] [1] [0] ∧
    ((⟨0, 1, some "A@x.com ", none⟩ : Artifact).name ∈ ([0] : List Nat) ∧
      (⟨0, 1, some "A@x.com ", none⟩ : Artifact).name ∈ ([0] : List Nat)) := by
  refine ⟨by decide, by decide, ?_⟩
  have hc := dedupe_group_resolution
    [⟨0, 1, some "A@x.com ", none⟩, ⟨1, 2, some "a@x.com", none⟩] [] [0] [1]
    [0] (by decide) (by decide)
  exact hc.1 "a@x.com" (by decide) (by decide)
    ⟨1, 2, some "a@x.com", none⟩ [⟨0, 1, some "A@x.com ", none⟩] (by decide)
    ⟨0, 1, some "A@x.com ", none⟩ (by decide)

/-! ## C7: relocated artifacts are not excluded from phone-group
processing -/

/-- C7 counterexample: two artifacts sharing both the normalized email and
the normalized phone.  The email phase relocates the older one; the phone
map, built before any relocation, still lists it, and the phone phase `stat`s
it and raises `FileNotFoundError` — the run returns no summary at all, so the
relocated artifact was not excluded from phone-group processing. -/
theorem dedupe_never_raises_counterexample : ¬ dedupeNeverRaisesClaim := by
  intro h
  obtain ⟨m, kept, removed, heq⟩ :=
    h [⟨0, 1, some "a@x.com", some "111"⟩,
       ⟨1, 2, some "a@x.com", some "111"⟩] []
  rw [show run_dedupe [⟨0, 1, some "a@x.com", some "111"⟩,
        ⟨1, 2, some "a@x.com", some "111"⟩] [] = .err [0] from by decide]
    at heq
  simp at heq

/-- C7 (amended): email groups are processed first, but an artifact they
relocate is *not* excluded from the phone map: if any size-≥ 2 phone group
(built over the same pre-run scan) contains an artifact the email phase
relocated, `run_dedupe` raises `FileNotFoundError` (modelled as `.err`)
instead of returning a summary — the group is aborted, not filtered. -/
theorem dedupe_relocated_artifact_aborts_phone_phase
    (arts : List Artifact) (moved0 m1 k1 r1 : List Nat)
    (hE : emailPhase arts moved0 = .ok m1 k1 r1) (kk : String)
    (hkk : kk ∈ keysFor phoneKeyOf (scanFiles arts moved0))
    (hsize : 2 ≤ (groupOf phoneKeyOf (scanFiles arts moved0) kk).length)
    (a : Artifact) (ha : a ∈ groupOf phoneKeyOf (scanFiles arts moved0) kk)
    (hrel : a.name ∈ m1) :
    ∃ m', run_dedupe arts moved0 = .err m' := by
  obtain ⟨m'', he⟩ := processGroups_err_of_moved (k := k1) (r := r1)
    ⟨kk, hkk, hsize, a, ha, hrel⟩
  refine ⟨m'', ?_⟩
  unfold run_dedupe
  rw [hE]
  simp only
  rw [he]

/-- Witness for C7 (amended) at the two-artifact directory sharing email and
phone: the email phase completes having relocated artifact 0, and the run
errors. -/
theorem dedupe_relocated_artifact_aborts_phone_phase_witness :
    emailPhase [⟨0, 1, some "a@x.com", some "111"⟩,
        ⟨1, 2, some "a@x.com", some "111"⟩] [] = .ok [0] [1] [0] ∧
    ("111" ∈ keysFor phoneKeyOf
        (scanFiles [⟨0, 1, some "a@x.com", some "111"⟩,
          ⟨1, 2, some "a@x.com", some "111"⟩] [])) ∧
    (∃ m', run_dedupe [⟨0, 1, some "a@x.com", some "111"⟩,
        ⟨1, 2, some "a@x.com", some "111"⟩] [] = .err m') := by
  refine ⟨by decide, by decide, ?_⟩
  exact dedupe_relocated_artifact_aborts_phone_phase
    [⟨0, 1, some "a@x.com", some "111"⟩,
     ⟨1, 2, some "a@x.com", some "111"⟩] [] [0] [1] [0] (by decide) "111"
    (by decide) (by decide) ⟨0, 1, some "a@x.com", some "111"⟩ (by decide)
    (by decide)

/-! ## C8: idempotence -/

/-- C8 counterexample: a directory on which the first run raises midway
(email phase relocates artifact 0, then the phone group `111` aborts the
run), leaving the phone group `222` unprocessed; the immediate second run
then relocates artifact 3, so its `removed` is not empty. -/
theorem dedupe_idempotent_counterexample : ¬ dedupeIdempotentClaim := by
  intro h
  obtain ⟨m2, kept2, heq⟩ :=
    h [⟨0, 1, some "a@x.com", some "111"⟩, ⟨1, 2, some "a@x.com", none⟩,
       ⟨2, 0, none, some "111"⟩, ⟨3, 5, none, some "222"⟩,
       ⟨4, 6, none, some "222"⟩] [] [0] (.inr (by decide))
  rw [show run_dedupe
        [⟨0, 1, some "a@x.com", some "111"⟩, ⟨1, 2, some "a@x.com", none⟩,
         ⟨2, 0, none, some "111"⟩, ⟨3, 5, none, some "222"⟩,
         ⟨4, 6, none, some "222"⟩] [0] = .ok [0, 3] [1, 2, 4] [3]
      from by decide] at heq
  simp at heq

/-- C8 (amended): dedupe is idempotent after a *completed* run: if
`run_dedupe` returns a summary (rather than raising), an immediate second run
over the same directory relocates nothing — it returns with the same moved
set and an empty `removed`.  (After a run that raised `FileNotFoundError`
midway the property fails, see the counterexample.) -/
theorem dedupe_idempotent_after_complete_run (arts : List Artifact)
    (moved0 m1 kept removed : List Nat)
    (hnodup : (arts.map Artifact.name).Nodup)
    (hok : run_dedupe arts moved0 = .ok m1 kept removed) :
    ∃ kept2, run_dedupe arts m1 = .ok m1 kept2 [] := by
  have hspec := run_dedupe_ok_spec arts moved0 m1 kept removed hnodup hok
  have hsmall : ∀ key : Artifact → Option String,
      key = emailKeyOf ∨ key = phoneKeyOf →
      ∀ kk ∈ keysFor key (scanFiles arts m1),
        (groupOf key (scanFiles arts m1) kk).length ≤ 1 := by
    intro key hkey kk _hkk
    by_contra hlen
    push_neg at hlen
    have h2 : 2 ≤ (groupOf key (scanFiles arts m1) kk).length := hlen
    have hnodup2 : (scanFiles arts m1).Nodup :=
      nodup_of_names_nodup (scanFiles_names_nodup hnodup)
    have hgn : (groupOf key (scanFiles arts m1) kk).Nodup :=
      (List.filter_sublist _).nodup hnodup2
    obtain ⟨a, b, ha, hb, hab⟩ := exists_pair_of_two_le_length hgn h2
    have haf2 := (mem_groupOf.1 ha).1
    have hak := (mem_groupOf.1 ha).2
    have hbf2 := (mem_groupOf.1 hb).1
    have hbk := (mem_groupOf.1 hb).2
    have ham1 := (mem_scanFiles.1 haf2).2
    have hbm1 := (mem_scanFiles.1 hbf2).2
    have haf1 : a ∈ scanFiles arts moved0 :=
      mem_scanFiles.2 ⟨(mem_scanFiles.1 haf2).1,
        fun hm0 => ham1 (hspec.1 _ hm0)⟩
    have hbf1 : b ∈ scanFiles arts moved0 :=
      mem_scanFiles.2 ⟨(mem_scanFiles.1 hbf2).1,
        fun hm0 => hbm1 (hspec.1 _ hm0)⟩
    have hkk1 : kk ∈ keysFor key (scanFiles arts moved0) :=
      key_mem_keysFor haf1 hak
    have hag1 : a ∈ groupOf key (scanFiles arts moved0) kk :=
      mem_groupOf.2 ⟨haf1, hak⟩
    have hbg1 : b ∈ groupOf key (scanFiles arts moved0) kk :=
      mem_groupOf.2 ⟨hbf1, hbk⟩
    have h21 : 2 ≤ (groupOf key (scanFiles arts moved0) kk).length :=
      two_le_length_of_mem_ne hag1 hbg1 hab
    obtain ⟨kp, rest, hs⟩ := sort_cons_of_two_le h21
    have hmema : a ∈ kp :: rest := by
      rw [← hs]
      exact (sortByMtimeDesc_perm _).symm.subset hag1
    have hmemb : b ∈ kp :: rest := by
      rw [← hs]
      exact (sortByMtimeDesc_perm _).symm.subset hbg1
    by_cases hap : a = kp
    · have hbrest : b ∈ rest := by
        cases List.mem_cons.1 hmemb with
        | inl e => exact absurd (hap.trans e.symm) hab
        | inr hr => exact hr
      exact hbm1 (hspec.2.1 key hkey kk hkk1 h21 kp rest hs b hbrest).1
    · have harest : a ∈ rest := by
        cases List.mem_cons.1 hmema with
        | inl e => exact absurd e hap
        | inr hr => exact hr
      exact ham1 (hspec.2.1 key hkey kk hkk1 h21 kp rest hs a harest).1
  obtain ⟨kE2, hE2⟩ := processGroups_all_small (m := m1) (k := [])
    (r := ([] : List Nat)) (hsmall emailKeyOf (.inl rfl))
  obtain ⟨kP2, hP2⟩ := processGroups_all_small (m := m1) (k := kE2)
    (r := ([] : List Nat)) (hsmall phoneKeyOf (.inr rfl))
  refine ⟨kP2.filter (fun p => p ∉ ([] : List Nat)), ?_⟩
  unfold run_dedupe emailPhase
  rw [hE2]
  simp only
  rw [hP2]

/-- Witness for C8 (amended): Scenario C's directory — the first run
completes relocating artifact 0, and the second run relocates nothing. -/
theorem dedupe_idempotent_after_complete_run_witness :
    (([⟨0, 1, some "A@x.com ", none⟩,
       ⟨1, 2, some "a@x.com", none⟩] : List Artifact).map
        Artifact.name).Nodup ∧
    run_dedupe [⟨0, 1, some "A@x.com ", none⟩, ⟨1, 2, some "a@x.com", none⟩]
        [] = .ok [0] [1] [0] ∧
    ∃ kept2, run_dedupe
        [⟨0, 1, some "A@x.com ", none⟩, ⟨1, 2, some "a@x.com", none⟩] [0] =
      .ok [0] kept2 [] :=
  ⟨by decide, by decide,
   dedupe_idempotent_after_complete_run
     [⟨0, 1, some "A@x.com ", none⟩, ⟨1, 2, some "a@x.com", none⟩] [] [0] [1]
     [0] (by decide) (by decide)⟩

end ATS
